import Mathlib

/-!
# Measurely signal-analysis pipeline: a shallow embedding

This file embeds the numerical core of the Measurely room-measurement
analyser (`src/measurely/analyse.py`, with the sibling rewrites in
`src/measurely/score.py` and `src/measurelyapp/`) into Lean 4 and proves
the behavioural properties claimed of it.

Modelling conventions:

* Floating-point numbers are modelled by exact rationals (`ℚ`).  Every value
  of `ℚ` is finite, so NumPy's `isfinite` filters are all-pass here and
  `nanmean`/`nanstd` coincide with plain `mean`/`std` (the pipeline only
  applies them to already-filtered finite data).  Python `None` / NumPy `NaN`
  sentinels become `Option.none`.
* The transcendental library calls (`np.log2`, `np.log10`, `2 ** x`,
  `np.sqrt`, `10 ** x`) have no exact rational counterpart; each is passed
  in as an explicit function parameter (`lg`, `lg2`, `pow2`, `sqrtf`,
  `pow10`) or as the precomputed value it contributes (`log2v` for
  `log2(fmax/fmin)`).  Theorems quantify over these parameters, assuming
  only the finitely many order facts the real functions satisfy (e.g. that
  a bin centre lies between its two edges); witnesses instantiate them with
  rational tables agreeing with the real functions at the evaluated points.
* `np.linalg.lstsq` applied to the two-column design matrix `[t, 1]` is the
  ordinary least-squares line fit; it is embedded by the closed-form slope
  `(n·Σty − Σt·Σy) / (n·Σt² − (Σt)²)`, which is what `lstsq` returns
  whenever the times in the fit window are distinct (they always are:
  `t = arange(n)/fs`).
* Python's `round(x, n)` (and NumPy's) round half to even; `int(x)` on a
  non-negative float truncates.  Both are embedded exactly on `ℚ`.
-/

set_option maxRecDepth 8000

namespace Measurely

/-! ## Definitions -/

/-- Python/NumPy `round` to an integer: round half to even. -/
def roundHalfEven (q : ℚ) : ℤ :=
  let n := ⌊q⌋
  let r := q - (n : ℚ)
  if r < 1/2 then n
  else if 1/2 < r then n + 1
  else if 2 ∣ n then n else n + 1

/-- Python `round(x, 2)`, used for reflection times in milliseconds. -/
def round2 (q : ℚ) : ℚ := (roundHalfEven (100 * q) : ℚ) / 100

/-- Python `round(x, 1)`, used by the scoring layer. -/
def round1 (q : ℚ) : ℚ := (roundHalfEven (10 * q) : ℚ) / 10

/-- First index attaining the maximum of `|·|` (NumPy `argmax(abs(x))`). -/
def argmaxAbs (l : List ℚ) : ℕ :=
  (l.foldl
    (fun (st : ℕ × ℕ × ℚ) x =>
      if st.2.2 < |x| then (st.2.1, st.2.1 + 1, |x|) else (st.1, st.2.1 + 1, st.2.2))
    (0, 0, -1)).1

/-- Reverse cumulative sum (`np.cumsum(e[::-1])[::-1]`): suffix sums. -/
def suffixSums : List ℚ → List ℚ
  | [] => []
  | x :: xs => (x + (suffixSums xs).headD 0) :: suffixSums xs

/-- Ordinary least-squares slope of a list of `(t, y)` points — the first
component of `np.linalg.lstsq(vstack([t, ones]).T, y)[0]` when the `t`
values are distinct. -/
def olsSlope (pts : List (ℚ × ℚ)) : ℚ :=
  let n : ℚ := pts.length
  let sx := (pts.map Prod.fst).sum
  let sy := (pts.map Prod.snd).sum
  let sxy := (pts.map (fun p => p.1 * p.2)).sum
  let sxx := (pts.map (fun p => p.1 * p.1)).sum
  (n * sxy - sx * sy) / (n * sxx - sx * sx)

/-- `{rt60_s, method, edt_s}` with `None` as `Option.none`
(`rt60_metrics` in `measurely/analyse.py`). -/
structure ReverbResult where
  rt60_s : Option ℚ
  method : Option String
  edt_s : Option ℚ
deriving Repr, DecidableEq

/-- The analysis window of the impulse response: from the main-arrival index
`i0 = argmax(|ir|)` up to `min(len, i0 + int(max_window_s * fs))` with the
default `max_window_s = 1.5` (`y = ir[i0:end]`). -/
def irWindow (ir : List ℚ) (fs : ℕ) : List ℚ :=
  (ir.drop (argmaxAbs ir)).take (3 * fs / 2)

/-- The decibel energy-decay curve of the windowed impulse response:
`e = y²`; `edc = reverse-cumsum(e)` normalised by `edc[0] + 1e-18`;
`edc_db = 10*log10(max(edc, 1e-18))`.  `lg` stands for `log10`. -/
def edcDb (ir : List ℚ) (fs : ℕ) (lg : ℚ → ℚ) : List ℚ :=
  let y := irWindow ir fs
  let e := y.map (fun v => v * v)
  let edc := suffixSums e
  let edc0 := edc.headD 0
  let edcn := edc.map (fun v => v / (edc0 + 1 / 10 ^ 18))
  edcn.map (fun v => 10 * lg (max v (1 / 10 ^ 18)))

/-- The `(t, edc_db)` pairs falling inside a dB window `[db_high, db_low]`
(mask `(edc_db <= db_low) & (edc_db >= db_high)`), with `t = arange(n)/fs`. -/
def fitPoints (ir : List ℚ) (fs : ℕ) (lg : ℚ → ℚ) (dbLow dbHigh : ℚ) :
    List (ℚ × ℚ) :=
  (edcDb ir fs lg).enum.filterMap
    (fun p =>
      if p.2 ≤ dbLow ∧ dbHigh ≤ p.2 then some (((p.1 : ℚ) / (fs : ℚ)), p.2)
      else none)

/-- `fit_decay(db_low, db_high)`: require at least `max(10, int(0.1*fs))`
points in the window, fit a line, and accept only a decaying slope
(`slope < -1e-6`). -/
def fit_decay (ir : List ℚ) (fs : ℕ) (lg : ℚ → ℚ) (dbLow dbHigh : ℚ) :
    Option ℚ :=
  let pts := fitPoints ir fs lg dbLow dbHigh
  if pts.length < max 10 (fs / 10) then none
  else
    let s := olsSlope pts
    if s < -(1 / 10 ^ 6) then some s else none

/-- The EDT fit over `[0, −10]` dB: the slope is computed whenever the window
holds at least `max(8, int(0.05*fs))` points (the sign test is applied by the
caller, mirroring the source). -/
def edtSlope (ir : List ℚ) (fs : ℕ) (lg : ℚ → ℚ) : Option ℚ :=
  let pts := fitPoints ir fs lg 0 (-10)
  if max 8 (fs / 20) ≤ pts.length then some (olsSlope pts) else none

/-- The fitted RT60 before the plausibility gate: T30 over `[−5, −35]` dB
first, falling back to T20 over `[−5, −25]` dB, scaled by `−60/slope`,
paired with the method tag. -/
def fittedRT60 (ir : List ℚ) (fs : ℕ) (lg : ℚ → ℚ) : Option (ℚ × String) :=
  match fit_decay ir fs lg (-5) (-35) with
  | some s => some (-60 / s, "T30 (-5..-35 dB)")
  | none =>
    match fit_decay ir fs lg (-5) (-25) with
    | some s => some (-60 / s, "T20 (-5..-25 dB)")
    | none => none

/-- `rt60_metrics(ir, fs, max_window_s=1.5)` from `measurely/analyse.py`:
precondition guards, Schroeder integration, EDT fit, T30/T20 RT60 fit and
the `[0.1, 2.5]` s plausibility gate. -/
def rt60_metrics (ir : List ℚ) (fs : ℕ) (lg : ℚ → ℚ) : ReverbResult :=
  if ir.length < fs / 10 then ⟨none, none, none⟩
  else if (irWindow ir fs).length < fs / 4 then ⟨none, none, none⟩
  else
    let edt : Option ℚ :=
      match edtSlope ir fs lg with
      | some s => if s < -(1 / 10 ^ 6) then some ((-60 / s) * (10 / 60)) else none
      | none => none
    match fittedRT60 ir fs lg with
    | none => ⟨none, none, edt⟩
    | some (r, m) =>
      if 1/10 ≤ r ∧ r ≤ 5/2 then ⟨some r, some m, edt⟩ else ⟨none, none, edt⟩

/-- A 12-sample unit impulse response used to exercise the plausibility
gate. -/
def c1IR : List ℚ := List.replicate 12 1

/-- A rational stand-in for `log10` chosen so that the T30 window of `c1IR`
at 8 Hz holds exactly ten points. -/
def c1LG : ℚ → ℚ := fun x => 4 * x + (-7/2 - 12 / (12 + 1 / 10 ^ 18))

/-- The exact T30-fitted RT60 of `c1IR` at 8 Hz under `c1LG`. -/
def c1R : ℚ := 60 * (12 + 1 / 10 ^ 18) / 320

/-- An 8-sample unit impulse response whose EDT fit succeeds at 8 Hz. -/
def c8IR : List ℚ := List.replicate 8 1

/-! ### Spectral compactor (`compact_log_bins` in `measurely/analyse.py`) -/

/-- The input filter of the compactor:
`(freqs >= max(fmin, 1e-3)) & (freqs <= fmax) & isfinite(mags)`
(the finiteness conjunct is all-pass over `ℚ`). -/
def keepPts (pts : List (ℚ × ℚ)) (fmin fmax : ℚ) : List (ℚ × ℚ) :=
  pts.filter (fun p => decide (max fmin (1/1000) ≤ p.1) && decide (p.1 ≤ fmax))

/-- `n_bins = int(np.ceil(points_per_oct * octaves))` with
`octaves = log2(fmax/fmin)` supplied as the parameter `log2v`. -/
def nBins (ppo : ℕ) (log2v : ℚ) : ℕ := (⌈(ppo : ℚ) * log2v⌉).toNat

/-- `edges = fmin * 2.0 ** (arange(n_bins + 1) / points_per_oct)`, with
`2.0 ** ·` supplied as the parameter `pow2`. -/
def binEdge (fmin : ℚ) (ppo : ℕ) (pow2 : ℚ → ℚ) (i : ℕ) : ℚ :=
  fmin * pow2 ((i : ℚ) / (ppo : ℚ))

/-- `idx = clip(digitize(freqs, edges) - 1, 0, n_bins - 1)`.  For ascending
edges, `np.digitize(f, edges)` is the number of edges `≤ f`; the `- 1` with
clipping to `0` below is Nat truncated subtraction. -/
def binIndex (fmin : ℚ) (ppo n : ℕ) (pow2 : ℚ → ℚ) (f : ℚ) : ℕ :=
  min ((List.range (n + 1)).countP
        (fun j => decide (binEdge fmin ppo pow2 j ≤ f)) - 1) (n - 1)

/-- `counts = bincount(idx, minlength=n_bins)` read at bin `b`. -/
def binCount (kept : List (ℚ × ℚ)) (fmin : ℚ) (ppo n : ℕ) (pow2 : ℚ → ℚ)
    (b : ℕ) : ℕ :=
  (kept.filter (fun p => decide (binIndex fmin ppo n pow2 p.1 = b))).length

/-- `sums = bincount(idx, weights=mags, minlength=n_bins)` read at bin `b`. -/
def binSum (kept : List (ℚ × ℚ)) (fmin : ℚ) (ppo n : ℕ) (pow2 : ℚ → ℚ)
    (b : ℕ) : ℚ :=
  ((kept.filter (fun p => decide (binIndex fmin ppo n pow2 p.1 = b))).map
    Prod.snd).sum

/-- `compact_log_bins(freqs, mags, fmin, fmax, points_per_oct)`: filter to
`[max(fmin, 1e-3), fmax]`; if fewer than 8 samples remain return them
unchanged; otherwise average magnitudes into log-spaced bins
(`mag_mean = sums / maximum(counts, 1)`), with bin centres
`fc = sqrt(edges[:-1] * edges[1:])`, returning only bins with
`counts > 0` in ascending bin order. -/
def compact_log_bins (pts : List (ℚ × ℚ)) (fmin fmax : ℚ) (ppo : ℕ)
    (log2v : ℚ) (pow2 sqrtf : ℚ → ℚ) : List (ℚ × ℚ) :=
  if (keepPts pts fmin fmax).length < 8 then keepPts pts fmin fmax
  else
    (List.range (nBins ppo log2v)).filterMap (fun b =>
      if 0 < binCount (keepPts pts fmin fmax) fmin ppo (nBins ppo log2v) pow2 b then
        some (sqrtf (binEdge fmin ppo pow2 b * binEdge fmin ppo pow2 (b + 1)),
          binSum (keepPts pts fmin fmax) fmin ppo (nBins ppo log2v) pow2 b /
            ((max (binCount (keepPts pts fmin fmax) fmin ppo (nBins ppo log2v) pow2 b) 1 : ℕ) : ℚ))
      else none)

/-- A rational stand-in for `2.0 ** ·` agreeing with it at the arguments
`0, 1, 2, 3, 4` used by a 4-bin compactor. -/
def pow2w : ℚ → ℚ := fun q =>
  if q ≤ 0 then 1 else if q ≤ 1 then 2 else if q ≤ 2 then 4
  else if q ≤ 3 then 8 else 16

/-- A rational stand-in for `np.sqrt`, agreeing with it to 15 digits at the
edge products `2, 8, 32, 128` used by a 4-bin compactor. -/
def sqrtw : ℚ → ℚ := fun q =>
  if q ≤ 2 then 1414213562373095 / 10 ^ 15
  else if q ≤ 8 then 2828427124746190 / 10 ^ 15
  else if q ≤ 32 then 5656854249492380 / 10 ^ 15
  else 11313708498984760 / 10 ^ 15

/-- Eight in-range samples for a compactor with `fmin = 1`, `fmax = 16`,
`ppo = 1` (so `log2(fmax/fmin) = 4` exactly). -/
def c2Pts : List (ℚ × ℚ) :=
  [(1, 0), (3/2, 1), (2, 2), (3, 3), (4, 4), (6, 5), (8, 6), (9, 7)]

/-- Eight in-range samples for a compactor with `fmin = 1`, `fmax = 10`,
`ppo = 1` (`log2(10) ≈ 3.3219`): the last retained bin is `[8, 16)`, whose
centre `√128 ≈ 11.31` exceeds `fmax`. -/
def c9Pts : List (ℚ × ℚ) :=
  [(1, 0), (3/2, 2), (2, 4), (3, 6), (4, 8), (6, 10), (8, 12), (9, 14)]

/-- Eight in-range samples for a compactor with `fmin = 1`, `fmax = 16`,
`ppo = 1`: here every bin centre stays within `[fmin, fmax]`. -/
def c9WPts : List (ℚ × ℚ) :=
  [(1, 1), (3/2, 3), (2, 5), (3, 7), (4, 9), (6, 11), (8, 13), (9, 15)]

/-! ### Band aggregator (`band_mask` + `band_levels_db` in `analyse`) -/

/-- `band_mask(freqs, f_lo, f_hi)` = `(freqs >= f_lo) & (freqs < f_hi)`. -/
def inBand (lo hi : ℚ) (p : ℚ × ℚ) : Bool :=
  decide (lo ≤ p.1) && decide (p.1 < hi)

/-- One band entry of `band_levels_db` in `analyse`:
`float(np.nanmean(mags[band_mask(freqs, lo, hi)]) if np.any(band_mask(...))
else np.nan)`, with NaN as `none`.  The magnitudes of a compacted curve are
finite, so `nanmean` is the arithmetic mean of exactly the masked points. -/
def band_mean_opt (pts : List (ℚ × ℚ)) (lo hi : ℚ) : Option ℚ :=
  if (pts.filter (inBand lo hi)).length = 0 then none
  else some (((pts.filter (inBand lo hi)).map Prod.snd).sum /
    ((pts.filter (inBand lo hi)).length : ℚ))

/-- The four fixed bands of `analyse`. -/
def fourBands : List (String × ℚ × ℚ) :=
  [("bass_20_200", 20, 200), ("mid_200_2k", 200, 2000),
   ("treble_2k_10k", 2000, 10000), ("air_10k_20k", 10000, 20000)]

/-- A two-point curve lying entirely inside the bass band. -/
def c3Pts : List (ℚ × ℚ) := [(25, 2), (30, 4)]

/-! ### Mode detector (`detect_modes` in `measurely/analyse.py`) -/

/-- `{type: peak|dip, freq_hz, delta_db}`. -/
structure Mode where
  type : String
  freq_hz : ℚ
  delta_db : ℚ
deriving Repr, DecidableEq

/-- Insertion into a sorted list (ascending), used to embed NumPy's sort. -/
def insertLe (x : ℚ) : List ℚ → List ℚ
  | [] => [x]
  | y :: ys => if x ≤ y then x :: y :: ys else y :: insertLe x ys

/-- A stable ascending sort of a rational list. -/
def sortQ (l : List ℚ) : List ℚ := l.foldr insertLe []

/-- `np.median`: middle element of the sorted list (odd length) or the
average of the two middle elements (even length).  NumPy returns NaN on an
empty array; every call site in the pipeline guards against that, and the
`0` returned here is never read. -/
def npMedian (l : List ℚ) : ℚ :=
  if l.length % 2 = 1 then (sortQ l).getD (l.length / 2) 0
  else ((sortQ l).getD (l.length / 2 - 1) 0 + (sortQ l).getD (l.length / 2) 0) / 2

/-- `np.convolve(m, ones(win)/win, mode="same")`: the centred zero-padded
moving average.  (This is NumPy's "same" mode when `win ≤ len m`; for
`win > len m` NumPy returns a longer array and the subsequent subtraction
in the source raises a shape error, which a total embedding cannot
reproduce.) -/
def convolveSame (m : List ℚ) (win : ℕ) : List ℚ :=
  (List.range m.length).map (fun i =>
    (((List.range win).map (fun j =>
      if j ≤ i + (win - 1) / 2 ∧ i + (win - 1) / 2 - j < m.length then
        m.getD (i + (win - 1) / 2 - j) 0
      else 0)).sum) / (win : ℚ))

/-- One greedy step of the mode scan over `(freq, delta)` pairs: accept when
`|delta| >= threshold_db` and the frequency is at least `min_sep_hz` above
the last accepted frequency (carried as `st.1`, initially `-1e9`); the
accepted list `st.2` is built newest-first. -/
def modeStep (thr minsep : ℚ) (st : ℚ × List Mode) (fd : ℚ × ℚ) :
    ℚ × List Mode :=
  if thr ≤ |fd.2| ∧ minsep ≤ fd.1 - st.1 then
    (fd.1, ⟨if 0 < fd.2 then "peak" else "dip", fd.1, fd.2⟩ :: st.2)
  else st

/-- `detect_modes(freqs, mags, threshold_db=6.0, min_sep_hz=15.0)` from
`measurely/analyse.py`: below 16 points return `[]`; estimate bins per
octave from the median of `1/log2(max(ratios, 1e-12))` (`lg2` stands for
`log2`); smooth with a `max(3, round(bpo/3))`-wide centred moving average;
report `mags - base` deviations by the greedy scan. -/
def detect_modes (pts : List (ℚ × ℚ)) (threshold_db min_sep_hz : ℚ)
    (lg2 : ℚ → ℚ) : List Mode :=
  if pts.length < 16 then []
  else
    let freqs := pts.map Prod.fst
    let mags := pts.map Prod.snd
    let ratios := (freqs.zip (freqs.drop 1)).map (fun p => p.2 / p.1)
    let bpo := if ratios.length ≠ 0 then
        npMedian (ratios.map (fun r => 1 / lg2 (max r (1 / 10 ^ 12)))) else 48
    let base := convolveSame mags ((max 3 (roundHalfEven (bpo / 3))).toNat)
    let delta := (mags.zip base).map (fun p => p.1 - p.2)
    (((freqs.zip delta).foldl (modeStep threshold_db min_sep_hz)
        (-(10 ^ 9 : ℚ), [])).2).reverse

/-- A 16-point curve, flat except for a `+9` dB spike at 90 Hz. -/
def c4Pts : List (ℚ × ℚ) :=
  [(10, 0), (20, 0), (30, 0), (40, 0), (50, 0), (60, 0), (70, 0), (80, 0),
   (90, 9), (100, 0), (110, 0), (120, 0), (130, 0), (140, 0), (150, 0),
   (160, 0)]

/-! ### Reflection detector (`reflections_from_ir` in `measurely/analyse.py`) -/

/-- One loop iteration of the reflection scan at sample index `i`: a local
maximum of `|ir|` at or above the threshold (`ai >= thr`, `ai > |ir[i-1]|`,
`ai >= |ir[i+1]|`) is accepted when the list is empty or its time is at
least 0.3 ms after the previously accepted (already rounded) time; times are
stored rounded to 2 decimals, newest-first. -/
def reflStep (ir : List ℚ) (fs idx0 : ℕ) (thr : ℚ) (acc : List ℚ) (i : ℕ) :
    List ℚ :=
  if thr ≤ |ir.getD i 0| ∧ |ir.getD (i-1) 0| < |ir.getD i 0| ∧
      |ir.getD (i+1) 0| ≤ |ir.getD i 0| then
    if acc = [] ∨ 3/10 ≤ ((i : ℚ) - (idx0 : ℚ)) * 1000 / (fs : ℚ) - acc.headD 0
    then round2 (((i : ℚ) - (idx0 : ℚ)) * 1000 / (fs : ℚ)) :: acc
    else acc
  else acc

/-- `reflections_from_ir(ir, fs, win_ms=20.0, min_rel_db=-20.0)` from
`measurely/analyse.py`: find the main arrival `idx0 = argmax(|ir|)`,
threshold `(|ir[idx0]| + 1e-12) * 10**(min_rel_db/20)` (`pow10` stands for
`10.0 ** ·`), scan indices `idx0+1 .. end-2` with
`end = min(len, idx0 + int(fs*win_ms/1000))`, and return the accepted times
in ascending order. -/
def reflections_from_ir (ir : List ℚ) (fs : ℕ) (win_ms min_rel_db : ℚ)
    (pow10 : ℚ → ℚ) : List ℚ :=
  if ir.length = 0 then []
  else
    ((List.range' (argmaxAbs ir + 1)
        (min ir.length (argmaxAbs ir + (⌊(fs : ℚ) * (win_ms / 1000)⌋).toNat)
          - 1 - (argmaxAbs ir + 1))).foldl
      (reflStep ir fs (argmaxAbs ir)
        ((|ir.getD (argmaxAbs ir) 0| + 1 / 10 ^ 12) * pow10 (min_rel_db / 20)))
      []).reverse

/-- An impulse response with candidate peaks 0.15 ms apart at 20 kHz
(offsets 3 and 6). -/
def c5aIR : List ℚ := [1, 0, 0, 1/2, 0, 0, 1/2, 0]

/-- An impulse response with candidate peaks 2 ms apart at 2 kHz
(offsets 4 and 8). -/
def c5bIR : List ℚ := [1, 0, 0, 0, 1/2, 0, 0, 0, 1/2, 0]

/-! ### Bandwidth estimator (`find_3db_points` in `measurely/analyse.py`) -/

/-- `find_3db_points(freqs, mags)`: `(None, None)` below 8 points; reference
= median magnitude over the 500–2000 Hz band (whole curve if that band is
empty); target = reference − 3; low edge = frequency of the first point with
magnitude ≥ target, high edge = frequency of the last such point (scanned
from the end), each `None` when no point qualifies. -/
def find_3db_points (pts : List (ℚ × ℚ)) : Option ℚ × Option ℚ :=
  if pts.length < 8 then (none, none)
  else
    ((pts.find? (fun p =>
        decide ((if (pts.filter (inBand 500 2000)).length ≠ 0 then
            npMedian ((pts.filter (inBand 500 2000)).map Prod.snd)
          else npMedian (pts.map Prod.snd)) - 3 ≤ p.2))).map Prod.fst,
     (pts.reverse.find? (fun p =>
        decide ((if (pts.filter (inBand 500 2000)).length ≠ 0 then
            npMedian ((pts.filter (inBand 500 2000)).map Prod.snd)
          else npMedian (pts.map Prod.snd)) - 3 ≤ p.2))).map Prod.fst)

/-- An 8-point all-flat curve at 0 dB, sorted ascending. -/
def c6Pts : List (ℚ × ℚ) :=
  [(20, 0), (50, 0), (100, 0), (400, 0), (900, 0), (1500, 0), (5000, 0),
   (12000, 0)]

/-! ### Bandwidth scoring (`score_bandwidth` in `measurely/score.py`,
`measurely/analyse.py` and `measurelyapp/score.py`) -/

/-- `linmap(x, x0, x1, y0, y1)`: clamped linear interpolation, shared by the
scoring layers (`t = (x-x0)/(x1-x0)` clamped to `[0,1]`). -/
def linmap (x x0 x1 y0 y1 : ℚ) : ℚ :=
  if x0 = x1 then (y0 + y1) / 2
  else
    y0 + (if (x - x0) / (x1 - x0) < 0 then 0
      else if 1 < (x - x0) / (x1 - x0) then 1
      else (x - x0) / (x1 - x0)) * (y1 - y0)

/-- The low-edge score in `measurely/score.py`:
`0 if lo is None else (10 if lo <= 35 else linmap(lo, 35, 100, 10, 0))`. -/
def mea_slo : Option ℚ → ℚ
  | none => 0
  | some lo => if lo ≤ 35 then 10 else linmap lo 35 100 10 0

/-- The high-edge score in `measurely/score.py`:
`0 if hi is None else (10 if hi >= 18000 else linmap(hi, 6000, 18000, 0, 10))`. -/
def mea_shi : Option ℚ → ℚ
  | none => 0
  | some hi => if 18000 ≤ hi then 10 else linmap hi 6000 18000 0 10

/-- `score_bandwidth(lo, hi)` from `measurely/score.py`:
`round((slo + shi)/2, 1)`. -/
def mea_score_bandwidth (lo hi : Option ℚ) : ℚ :=
  round1 ((mea_slo lo + mea_shi hi) / 2)

/-- The low-edge score in `measurely/analyse.py` (`s_lo`). -/
def ana_slo : Option ℚ → ℚ
  | none => 0
  | some lo =>
    if lo ≤ 35 then 10
    else if lo ≤ 60 then linmap lo 35 60 10 6
    else if lo ≤ 80 then linmap lo 60 80 6 3
    else linmap lo 80 100 3 0

/-- The high-edge score in `measurely/analyse.py` (`s_hi`). -/
def ana_shi : Option ℚ → ℚ
  | none => 0
  | some hi =>
    if 18000 ≤ hi then 10
    else if 15000 ≤ hi then linmap hi 15000 18000 8 10
    else if 12000 ≤ hi then linmap hi 12000 15000 6 8
    else if 8000 ≤ hi then linmap hi 8000 12000 3 6
    else linmap hi 6000 8000 0 3

/-- `score_bandwidth(lo_hz, hi_hz)` from `measurely/analyse.py`:
`round((s_lo + s_hi)/2, 1)`. -/
def ana_score_bandwidth (lo hi : Option ℚ) : ℚ :=
  round1 ((ana_slo lo + ana_shi hi) / 2)

/-- `score_bandwidth(lo, hi)` from `measurelyapp/score.py` (debug logging
stripped): `_nan_safe` maps `None` to `None` (`ℚ` has no NaN), and a missing
edge short-circuits to the neutral score `5.0`; otherwise piecewise edge
scores are averaged and rounded. -/
def app_score_bandwidth : Option ℚ → Option ℚ → ℚ
  | some lo, some hi =>
    round1 (((if lo < 40 then 10
      else if lo < 60 then 10 - (lo - 40) * (8/100)
      else if lo < 80 then 84/10 - (lo - 60) * (10/100)
      else if lo < 100 then 64/10 - (lo - 80) * (10/100)
      else if lo < 150 then 44/10 - (lo - 100) * (3/100)
      else 1) +
      (if 18000 < hi then 10
      else if 16000 < hi then 8 + (hi - 16000) / 2000 * 2
      else if 14000 < hi then 6 + (hi - 14000) / 2000 * 2
      else if 12000 < hi then 4 + (hi - 12000) / 2000 * 2
      else max 1 (hi / 12000 * 4))) / 2)
  | _, _ => 5

end Measurely

namespace Measurely

/-! ## Helper lemmas -/

theorem roundHalfEven_ge (q : ℚ) : q - 1/2 ≤ (roundHalfEven q : ℚ) := by
  unfold roundHalfEven
  have hfl : (⌊q⌋ : ℚ) ≤ q := Int.floor_le q
  have hfl' : q - 1 < (⌊q⌋ : ℚ) := Int.sub_one_lt_floor q
  by_cases h1 : q - (⌊q⌋ : ℚ) < 1/2
  · simp only [h1, if_true]
    linarith
  · simp only [h1, if_false]
    by_cases h2 : (1:ℚ)/2 < q - (⌊q⌋ : ℚ)
    · simp only [h2, if_true]
      push_cast
      linarith
    · simp only [h2, if_false]
      by_cases h3 : 2 ∣ ⌊q⌋
      · simp only [h3, if_true]
        linarith
      · simp only [h3, if_false]
        push_cast
        linarith

theorem roundHalfEven_intCast (n : ℤ) : roundHalfEven (n : ℚ) = n := by
  unfold roundHalfEven
  simp

/-- Edges are weakly monotone between indices below `n` whenever consecutive
edges are strictly increasing there. -/
theorem binEdge_mono_le (fmin : ℚ) (ppo : ℕ) (pow2 : ℚ → ℚ) (n : ℕ)
    (hEdge : ∀ b, b < n → binEdge fmin ppo pow2 b < binEdge fmin ppo pow2 (b+1)) :
    ∀ a b, a ≤ b → b ≤ n → binEdge fmin ppo pow2 a ≤ binEdge fmin ppo pow2 b := by
  intro a b hab hbn
  induction b, hab using Nat.le_induction with
  | base => exact le_refl _
  | succ m ham ih =>
    have h1 : binEdge fmin ppo pow2 a ≤ binEdge fmin ppo pow2 m :=
      ih (le_trans (Nat.le_succ m) hbn)
    exact le_trans h1 (le_of_lt (hEdge m (Nat.lt_of_succ_le hbn)))

/-- `countP` over `range m` of a predicate that is true exactly below a
boundary `k`. -/
theorem countP_range_boundary (m k : ℕ) (p : ℕ → Bool) (hk : k ≤ m)
    (h1 : ∀ j, j < k → p j = true) (h2 : ∀ j, k ≤ j → j < m → p j = false) :
    (List.range m).countP p = k := by
  induction m with
  | zero =>
    have : k = 0 := Nat.le_zero.mp hk
    simp [this]
  | succ m ih =>
    rw [List.range_succ, List.countP_append]
    rcases Nat.lt_or_ge m k with hmk | hmk
    · have hkeq : k = m + 1 := Nat.le_antisymm hk hmk
      subst hkeq
      have hfull : (List.range m).countP p = m := by
        have := List.countP_eq_length.mpr
          (fun a ha => h1 a (Nat.lt_succ_of_lt (List.mem_range.mp ha)))
        rw [this, List.length_range]
      rw [hfull]
      simp [h1 m (Nat.lt_succ_self m)]
    · have hrec : (List.range m).countP p = k :=
        ih hmk (fun j hjk hjm => h2 j hjk (Nat.lt_succ_of_lt hjm))
      rw [hrec]
      simp [h2 m hmk (Nat.lt_succ_self m)]

/-- The 4-bin configuration `ppo = 1`, `log2v = 4` (for `fmin = 1`,
`fmax = 16`). -/
theorem nBins_one_four : nBins 1 4 = 4 := by
  unfold nBins
  have h1 : ((1:ℕ) : ℚ) * 4 = 4 := by norm_num
  rw [h1]
  have h2 : ⌈(4:ℚ)⌉ = (4:ℤ) := by
    rw [Int.ceil_eq_iff]
    norm_num
  rw [h2]
  rfl

/-- The 4-bin configuration `ppo = 1`, `log2v = 3.3219 ≈ log2 10` (for
`fmin = 1`, `fmax = 10`). -/
theorem nBins_one_logten : nBins 1 (33219/10000) = 4 := by
  unfold nBins
  have h1 : ((1:ℕ) : ℚ) * (33219/10000) = 33219/10000 := by norm_num
  rw [h1]
  have h2 : ⌈(33219:ℚ)/10000⌉ = (4:ℤ) := by
    rw [Int.ceil_eq_iff]
    norm_num
  rw [h2]
  rfl

/-- A bin centre lying in `[edge b, edge (b+1))` digitises back to its own
bin `b`. -/
theorem binIndex_of_mem_bin (fmin : ℚ) (ppo n : ℕ) (pow2 : ℚ → ℚ) (b : ℕ)
    (f : ℚ) (hb : b < n)
    (hEdge : ∀ j, j < n → binEdge fmin ppo pow2 j < binEdge fmin ppo pow2 (j+1))
    (hlo : binEdge fmin ppo pow2 b ≤ f) (hhi : f < binEdge fmin ppo pow2 (b+1)) :
    binIndex fmin ppo n pow2 f = b := by
  unfold binIndex
  have hcount : (List.range (n + 1)).countP
      (fun j => decide (binEdge fmin ppo pow2 j ≤ f)) = b + 1 := by
    apply countP_range_boundary (n + 1) (b + 1) _ (by omega)
    · intro j hj
      have hj' : j ≤ b := Nat.lt_succ_iff.mp hj
      exact decide_eq_true
        (le_trans (binEdge_mono_le fmin ppo pow2 n hEdge j b hj' (le_of_lt hb)) hlo)
    · intro j hjk hjm
      have hbj : b + 1 ≤ j := hjk
      have hjn : j ≤ n := Nat.lt_succ_iff.mp hjm
      exact decide_eq_false (not_le.mpr
        (lt_of_lt_of_le hhi (binEdge_mono_le fmin ppo pow2 n hEdge (b+1) j hbj hjn)))
  rw [hcount]
  omega

/-- A `filterMap` whose function is an if-some-else-none is a `map` over a
`filter`. -/
theorem filterMap_ite {α β : Type} (l : List α) (p : α → Prop)
    [DecidablePred p] (g : α → β) :
    l.filterMap (fun a => if p a then some (g a) else none) =
      (l.filter (fun a => decide (p a))).map g := by
  induction l with
  | nil => rfl
  | cons a t ih =>
    by_cases h : p a
    · simp [h, ih]
    · simp [h, ih]

/-- Filtering a duplicate-free list for one value yields that value once or
not at all. -/
theorem filter_eq_singleton_of_nodup {l : List ℕ} (hl : l.Nodup) (b : ℕ) :
    l.filter (fun x => decide (x = b)) = if b ∈ l then [b] else [] := by
  induction l with
  | nil => simp
  | cons a t ih =>
    have h := List.nodup_cons.mp hl
    by_cases hab : a = b
    · subst hab
      have ht : t.filter (fun x => decide (x = a)) = [] :=
        List.filter_eq_nil_iff.mpr (fun x hx hxa => by
          have : x = a := of_decide_eq_true hxa
          exact h.1 (this ▸ hx))
      simp [List.filter_cons, ht]
    · rw [List.filter_cons, if_neg (by simp [hab]), ih h.2]
      have hmem : b ∈ a :: t ↔ b ∈ t := by
        constructor
        · intro hm
          rcases List.mem_cons.mp hm with h' | h'
          · exact absurd h'.symm hab
          · exact h'
        · exact fun hm => List.mem_cons_of_mem a hm
      by_cases hbt : b ∈ t
      · rw [if_pos hbt, if_pos (hmem.mpr hbt)]
      · rw [if_neg hbt, if_neg (fun hm => hbt (hmem.mp hm))]

/-- The compactor's input filter is idempotent. -/
theorem keepPts_idem (pts : List (ℚ × ℚ)) (fmin fmax : ℚ) :
    keepPts (keepPts pts fmin fmax) fmin fmax = keepPts pts fmin fmax := by
  unfold keepPts
  apply List.filter_eq_self.mpr
  intro p hp
  exact (List.mem_filter.mp hp).2

/-- Selecting one bin out of a compacted curve: if every listed bin's centre
digitises back to its own bin, the per-bin filter picks exactly the one
matching entry. -/
theorem filter_map_centre (used : List ℕ) (G : ℕ → ℚ × ℚ) (hnd : used.Nodup)
    (fmin : ℚ) (ppo n : ℕ) (pow2 : ℚ → ℚ) (b : ℕ)
    (hidx : ∀ b' ∈ used, binIndex fmin ppo n pow2 (G b').1 = b') :
    (used.map G).filter
        (fun q => decide (binIndex fmin ppo n pow2 q.1 = b)) =
      if b ∈ used then [G b] else [] := by
  rw [List.filter_map]
  have hc : used.filter
      ((fun q => decide (binIndex fmin ppo n pow2 q.1 = b)) ∘ G) =
      used.filter (fun b' => decide (b' = b)) :=
    List.filter_congr (fun b' hb' => by
      simp only [Function.comp_apply, hidx b' hb'])
  rw [hc, filter_eq_singleton_of_nodup hnd b]
  by_cases hb : b ∈ used
  · simp [hb]
  · simp [hb]

/-- Any curve of the shape "ascending list of in-range bin centres with
arbitrary magnitudes" is a fixed point of the compactor. -/
theorem compact_fixpoint (fmin fmax : ℚ) (ppo : ℕ) (log2v : ℚ)
    (pow2 sqrtf : ℚ → ℚ) (P : ℕ → Bool) (v : ℕ → ℚ)
    (hEdge : ∀ b, b < nBins ppo log2v →
        binEdge fmin ppo pow2 b < binEdge fmin ppo pow2 (b+1))
    (hSqrt : ∀ b, b < nBins ppo log2v →
        binEdge fmin ppo pow2 b ≤
            sqrtf (binEdge fmin ppo pow2 b * binEdge fmin ppo pow2 (b+1)) ∧
          sqrtf (binEdge fmin ppo pow2 b * binEdge fmin ppo pow2 (b+1)) <
            binEdge fmin ppo pow2 (b+1))
    (hLow : max fmin (1/1000) ≤ binEdge fmin ppo pow2 0)
    (hHigh : ∀ b, b < nBins ppo log2v → P b = true →
        sqrtf (binEdge fmin ppo pow2 b * binEdge fmin ppo pow2 (b+1)) ≤ fmax) :
    compact_log_bins
        (((List.range (nBins ppo log2v)).filter P).map
          (fun b =>
            (sqrtf (binEdge fmin ppo pow2 b * binEdge fmin ppo pow2 (b+1)),
             v b)))
        fmin fmax ppo log2v pow2 sqrtf =
      ((List.range (nBins ppo log2v)).filter P).map
        (fun b =>
          (sqrtf (binEdge fmin ppo pow2 b * binEdge fmin ppo pow2 (b+1)),
           v b)) := by
  have hsub : ∀ b ∈ (List.range (nBins ppo log2v)).filter P,
      b < nBins ppo log2v := fun b hb =>
    List.mem_range.mp (List.mem_filter.mp hb).1
  have hPmem : ∀ b ∈ (List.range (nBins ppo log2v)).filter P, P b = true :=
    fun b hb => (List.mem_filter.mp hb).2
  have hnd : ((List.range (nBins ppo log2v)).filter P).Nodup :=
    (List.nodup_range (nBins ppo log2v)).filter P
  have hidx : ∀ b' ∈ (List.range (nBins ppo log2v)).filter P,
      binIndex fmin ppo (nBins ppo log2v) pow2
        ((fun b =>
          (sqrtf (binEdge fmin ppo pow2 b * binEdge fmin ppo pow2 (b+1)),
           v b)) b').1 = b' := by
    intro b' hb'
    exact binIndex_of_mem_bin fmin ppo (nBins ppo log2v) pow2 b' _
      (hsub b' hb') hEdge (hSqrt b' (hsub b' hb')).1 (hSqrt b' (hsub b' hb')).2
  have hkeep : keepPts
      (((List.range (nBins ppo log2v)).filter P).map
        (fun b =>
          (sqrtf (binEdge fmin ppo pow2 b * binEdge fmin ppo pow2 (b+1)),
           v b))) fmin fmax =
      ((List.range (nBins ppo log2v)).filter P).map
        (fun b =>
          (sqrtf (binEdge fmin ppo pow2 b * binEdge fmin ppo pow2 (b+1)),
           v b)) := by
    unfold keepPts
    apply List.filter_eq_self.mpr
    intro q hq
    obtain ⟨b, hb, hqb⟩ := List.mem_map.mp hq
    have hbn := hsub b hb
    have h1 : max fmin (1/1000) ≤ q.1 := by
      rw [← hqb]
      exact le_trans hLow
        (le_trans (binEdge_mono_le fmin ppo pow2 (nBins ppo log2v) hEdge 0 b
          (Nat.zero_le b) (le_of_lt hbn)) (hSqrt b hbn).1)
    have h2 : q.1 ≤ fmax := by
      rw [← hqb]
      exact hHigh b hbn (hPmem b hb)
    simp only [Bool.and_eq_true, decide_eq_true_eq]
    exact ⟨h1, h2⟩
  have hcounts : ∀ b,
      binCount
        (((List.range (nBins ppo log2v)).filter P).map
          (fun b =>
            (sqrtf (binEdge fmin ppo pow2 b * binEdge fmin ppo pow2 (b+1)),
             v b))) fmin ppo (nBins ppo log2v) pow2 b =
        (if b ∈ (List.range (nBins ppo log2v)).filter P then 1 else 0) := by
    intro b
    unfold binCount
    rw [filter_map_centre _ _ hnd fmin ppo (nBins ppo log2v) pow2 b hidx]
    by_cases hb : b ∈ (List.range (nBins ppo log2v)).filter P
    · simp [hb]
    · simp [hb]
  have hsums : ∀ b,
      binSum
        (((List.range (nBins ppo log2v)).filter P).map
          (fun b =>
            (sqrtf (binEdge fmin ppo pow2 b * binEdge fmin ppo pow2 (b+1)),
             v b))) fmin ppo (nBins ppo log2v) pow2 b =
        (if b ∈ (List.range (nBins ppo log2v)).filter P then v b else 0) := by
    intro b
    unfold binSum
    rw [filter_map_centre _ _ hnd fmin ppo (nBins ppo log2v) pow2 b hidx]
    by_cases hb : b ∈ (List.range (nBins ppo log2v)).filter P
    · simp [hb]
    · simp [hb]
  unfold compact_log_bins
  rw [hkeep]
  by_cases hlen : (((List.range (nBins ppo log2v)).filter P).map
      (fun b =>
        (sqrtf (binEdge fmin ppo pow2 b * binEdge fmin ppo pow2 (b+1)),
         v b))).length < 8
  · rw [if_pos hlen]
  · rw [if_neg hlen]
    have hcong : (List.range (nBins ppo log2v)).filterMap (fun b =>
        if 0 < binCount
            (((List.range (nBins ppo log2v)).filter P).map
              (fun b =>
                (sqrtf (binEdge fmin ppo pow2 b * binEdge fmin ppo pow2 (b+1)),
                 v b))) fmin ppo (nBins ppo log2v) pow2 b then
          some (sqrtf (binEdge fmin ppo pow2 b * binEdge fmin ppo pow2 (b + 1)),
            binSum
                (((List.range (nBins ppo log2v)).filter P).map
                  (fun b =>
                    (sqrtf (binEdge fmin ppo pow2 b *
                      binEdge fmin ppo pow2 (b+1)), v b)))
                fmin ppo (nBins ppo log2v) pow2 b /
              ((max (binCount
                  (((List.range (nBins ppo log2v)).filter P).map
                    (fun b =>
                      (sqrtf (binEdge fmin ppo pow2 b *
                        binEdge fmin ppo pow2 (b+1)), v b)))
                  fmin ppo (nBins ppo log2v) pow2 b) 1 : ℕ) : ℚ))
        else none) =
        (List.range (nBins ppo log2v)).filterMap (fun b =>
          if b ∈ (List.range (nBins ppo log2v)).filter P then
            some (sqrtf (binEdge fmin ppo pow2 b * binEdge fmin ppo pow2 (b+1)),
              v b)
          else none) := by
      apply List.filterMap_congr
      intro b _
      rw [hcounts b, hsums b]
      by_cases hb : b ∈ (List.range (nBins ppo log2v)).filter P
      · simp only [if_pos hb]
        norm_num
      · simp only [if_neg hb]
        norm_num
    rw [hcong, filterMap_ite]
    have hfilter : ((List.range (nBins ppo log2v)).filter (fun b =>
        decide (b ∈ (List.range (nBins ppo log2v)).filter P))) =
        (List.range (nBins ppo log2v)).filter P := by
      apply List.filter_congr
      intro b hb
      by_cases hPb : P b = true
      · simp [List.mem_filter, hb, hPb]
      · simp [List.mem_filter, hPb]
    rw [hfilter]

/-- Pairwise order survives pairing with a second list. -/
theorem pairwise_map_fst_zip {R : ℚ → ℚ → Prop} :
    ∀ (l l' : List ℚ), l.Pairwise R → ((l.zip l').map Prod.fst).Pairwise R := by
  intro l
  induction l with
  | nil => intro l' _; simp
  | cons a t ih =>
    intro l' h
    cases l' with
    | nil => simp
    | cons b t' =>
      rw [List.zip_cons_cons, List.map_cons]
      rcases List.pairwise_cons.mp h with ⟨ha, ht⟩
      apply List.pairwise_cons.mpr
      refine ⟨?_, ih t' ht⟩
      intro x hx
      obtain ⟨⟨x1, x2⟩, hmem, hxx⟩ := List.mem_map.mp hx
      rw [← hxx]
      exact ha x1 (List.of_mem_zip hmem).1

/-- Invariants of the greedy mode scan: every accepted entry meets the
threshold with the right type tag, and (newest-first) the accepted list is
strictly descending in frequency with gaps of at least `minsep`. -/
theorem modeFold_props (thr minsep : ℚ) :
    ∀ (l : List (ℚ × ℚ)) (last : ℚ) (acc : List Mode),
      ((l.map Prod.fst).Pairwise (· < ·)) →
      (∀ m ∈ acc, thr ≤ |m.delta_db| ∧
          m.type = (if 0 < m.delta_db then "peak" else "dip")) →
      (∀ m ∈ acc.head?, m.freq_hz = last) →
      (∀ p ∈ l, ∀ m ∈ acc.head?, m.freq_hz < p.1) →
      acc.Chain' (fun a b => minsep ≤ a.freq_hz - b.freq_hz ∧
        b.freq_hz < a.freq_hz) →
      (∀ m ∈ (l.foldl (modeStep thr minsep) (last, acc)).2,
          thr ≤ |m.delta_db| ∧
            m.type = (if 0 < m.delta_db then "peak" else "dip")) ∧
        ((l.foldl (modeStep thr minsep) (last, acc)).2).Chain'
          (fun a b => minsep ≤ a.freq_hz - b.freq_hz ∧ b.freq_hz < a.freq_hz) := by
  intro l
  induction l with
  | nil => exact fun last acc _ h1 _ _ h4 => ⟨h1, h4⟩
  | cons p t ih =>
    intro last acc hsort h1 h2 h3 h4
    rw [List.foldl_cons]
    rcases List.pairwise_cons.mp hsort with ⟨hfst, hrest⟩
    by_cases hacc : thr ≤ |p.2| ∧ minsep ≤ p.1 - last
    · have hstep : modeStep thr minsep (last, acc) p =
          (p.1, ⟨if 0 < p.2 then "peak" else "dip", p.1, p.2⟩ :: acc) := by
        unfold modeStep
        rw [if_pos hacc]
      rw [hstep]
      apply ih
      · exact hrest
      · intro m hm
        rcases List.mem_cons.mp hm with h | h
        · rw [h]
          exact ⟨hacc.1, rfl⟩
        · exact h1 m h
      · intro m hm
        simp only [List.head?_cons, Option.mem_def, Option.some.injEq] at hm
        rw [← hm]
      · intro q hq m hm
        simp only [List.head?_cons, Option.mem_def, Option.some.injEq] at hm
        rw [← hm]
        exact hfst q.1 (List.mem_map.mpr ⟨q, hq, rfl⟩)
      · cases acc with
        | nil => exact List.chain'_singleton _
        | cons m0 rest =>
          apply List.Chain'.cons
          · constructor
            · have hlast : m0.freq_hz = last := h2 m0 rfl
              rw [hlast]
              exact hacc.2
            · exact h3 p (List.mem_cons_self p t) m0 rfl
          · exact h4
    · have hstep : modeStep thr minsep (last, acc) p = (last, acc) := by
        unfold modeStep
        rw [if_neg hacc]
      rw [hstep]
      apply ih last acc hrest h1 h2 _ h4
      intro q hq m hm
      exact h3 q (List.mem_cons_of_mem p hq) m hm

/-- The mode-scan output (oldest-first) satisfies the three claimed
invariants, for any `freqs`-aligned `delta` values. -/
theorem modeScan_props (thr minsep : ℚ) (freqs delta : List ℚ)
    (hsort : freqs.Pairwise (· < ·)) :
    (∀ m ∈ (((freqs.zip delta).foldl (modeStep thr minsep)
        (-(10 ^ 9 : ℚ), [])).2).reverse,
        thr ≤ |m.delta_db| ∧
          m.type = (if 0 < m.delta_db then "peak" else "dip"))
    ∧ (((((freqs.zip delta).foldl (modeStep thr minsep)
        (-(10 ^ 9 : ℚ), [])).2).reverse).map Mode.freq_hz).Chain' (· < ·)
    ∧ (((((freqs.zip delta).foldl (modeStep thr minsep)
        (-(10 ^ 9 : ℚ), [])).2).reverse).map Mode.freq_hz).Chain'
        (fun a b => minsep ≤ b - a) := by
  have hfold := modeFold_props thr minsep (freqs.zip delta) (-(10 ^ 9 : ℚ)) []
    (pairwise_map_fst_zip freqs delta hsort)
    (by intro m hm; exact absurd hm (List.not_mem_nil m))
    (by intro m hm; exact absurd hm (by simp))
    (by intro p _ m hm; exact absurd hm (by simp))
    List.chain'_nil
  refine ⟨?_, ?_, ?_⟩
  · intro m hm
    exact hfold.1 m (List.mem_reverse.mp hm)
  · rw [List.chain'_map, List.chain'_reverse]
    exact hfold.2.imp (fun a b h => h.2)
  · rw [List.chain'_map, List.chain'_reverse]
    exact hfold.2.imp (fun a b h => h.1)

/-- Rounding to 2 decimals keeps a time at least 0.3 ms above a previously
rounded (hundredth-grid) time. -/
theorem round2_ge_grid (t : ℚ) (k : ℤ) (h : (k : ℚ)/100 + 3/10 ≤ t) :
    (k : ℚ)/100 + 3/10 ≤ round2 t := by
  have h1 : (k : ℚ) + 30 ≤ 100 * t := by linarith
  have h2 := roundHalfEven_ge (100 * t)
  have h3 : ((k + 29 : ℤ) : ℚ) < (roundHalfEven (100 * t) : ℚ) := by
    push_cast
    linarith
  have h4 : (k + 29 : ℤ) < roundHalfEven (100 * t) := by exact_mod_cast h3
  have h5 : (k + 30 : ℤ) ≤ roundHalfEven (100 * t) := by omega
  have h6 : ((k + 30 : ℤ) : ℚ) ≤ (roundHalfEven (100 * t) : ℚ) := by
    exact_mod_cast h5
  unfold round2
  push_cast at h6
  linarith

/-- Invariant of the reflection scan: all stored times lie on the hundredth
grid and (newest-first) descend in steps of at least 0.3 ms. -/
theorem reflFold_inv (ir : List ℚ) (fs idx0 : ℕ) (thr : ℚ) :
    ∀ (l : List ℕ) (acc : List ℚ),
      (∀ x ∈ acc, ∃ k : ℤ, x = (k : ℚ)/100) →
      acc.Chain' (fun a b => 3/10 ≤ a - b) →
      (∀ x ∈ l.foldl (reflStep ir fs idx0 thr) acc, ∃ k : ℤ, x = (k : ℚ)/100)
        ∧ (l.foldl (reflStep ir fs idx0 thr) acc).Chain'
            (fun a b => 3/10 ≤ a - b) := by
  intro l
  induction l with
  | nil => exact fun acc h1 h2 => ⟨h1, h2⟩
  | cons i t ih =>
    intro acc h1 h2
    rw [List.foldl_cons]
    apply ih
    · intro x hx
      unfold reflStep at hx
      split at hx
      · split at hx
        · rcases List.mem_cons.mp hx with h | h
          · exact ⟨roundHalfEven (100 * (((i : ℚ) - (idx0 : ℚ)) * 1000
              / (fs : ℚ))), h⟩
          · exact h1 x h
        · exact h1 x hx
      · exact h1 x hx
    · unfold reflStep
      split
      · split
        · rename_i hcond
          cases acc with
          | nil => exact List.chain'_singleton _
          | cons a rest =>
            have hane : (a :: rest) ≠ ([] : List ℚ) := by simp
            have hgap : 3/10 ≤ ((i : ℚ) - (idx0 : ℚ)) * 1000 / (fs : ℚ) - a := by
              rcases hcond with h | h
              · exact absurd h hane
              · exact h
            obtain ⟨k, hk⟩ := h1 a (List.mem_cons_self a rest)
            apply List.Chain'.cons
            · have := round2_ge_grid (((i : ℚ) - (idx0 : ℚ)) * 1000 / (fs : ℚ))
                k (by rw [← hk]; linarith)
              rw [← hk] at this
              linarith
            · exact h2
        · exact h2
      · exact h2

theorem mem_insertLe {x y : ℚ} : ∀ {l : List ℚ}, x ∈ insertLe y l →
    x = y ∨ x ∈ l := by
  intro l
  induction l with
  | nil =>
    intro h
    rcases List.mem_singleton.mp h with h'
    exact Or.inl h'
  | cons a t ih =>
    intro h
    unfold insertLe at h
    split at h
    · rcases List.mem_cons.mp h with h' | h'
      · exact Or.inl h'
      · exact Or.inr h'
    · rcases List.mem_cons.mp h with h' | h'
      · exact Or.inr (h' ▸ List.mem_cons_self a t)
      · rcases ih h' with h'' | h''
        · exact Or.inl h''
        · exact Or.inr (List.mem_cons_of_mem a h'')

theorem mem_sortQ {x : ℚ} : ∀ {l : List ℚ}, x ∈ sortQ l → x ∈ l := by
  intro l
  induction l with
  | nil => exact fun h => h
  | cons a t ih =>
    intro h
    have h' : x ∈ insertLe a (sortQ t) := h
    rcases mem_insertLe h' with h'' | h''
    · exact h'' ▸ List.mem_cons_self a t
    · exact List.mem_cons_of_mem a (ih h'')

theorem length_insertLe (y : ℚ) : ∀ (l : List ℚ),
    (insertLe y l).length = l.length + 1 := by
  intro l
  induction l with
  | nil => rfl
  | cons a t ih =>
    unfold insertLe
    split
    · rfl
    · simp only [List.length_cons, ih]

theorem length_sortQ : ∀ (l : List ℚ), (sortQ l).length = l.length := by
  intro l
  induction l with
  | nil => rfl
  | cons a t ih =>
    have : sortQ (a :: t) = insertLe a (sortQ t) := rfl
    rw [this, length_insertLe, ih, List.length_cons]

/-- The median of a nonempty constant list is the constant. -/
theorem npMedian_const (l : List ℚ) (c : ℚ) (hne : l ≠ [])
    (hc : ∀ x ∈ l, x = c) : npMedian l = c := by
  have hlen : (sortQ l).length = l.length := length_sortQ l
  have hpos : 0 < l.length := List.length_pos.mpr hne
  have hget : ∀ i, i < l.length → (sortQ l).getD i 0 = c := by
    intro i hi
    have hi' : i < (sortQ l).length := by rw [hlen]; exact hi
    rw [List.getD_eq_getElem _ _ hi']
    exact hc _ (mem_sortQ (List.getElem_mem hi'))
  unfold npMedian
  by_cases hodd : l.length % 2 = 1
  · rw [if_pos hodd, hget _ (Nat.div_lt_self hpos (by norm_num))]
  · rw [if_neg hodd]
    have h2 : 2 ≤ l.length := by omega
    rw [hget _ (by omega), hget _ (by omega)]
    norm_num

/-- `find?` finds the head when every element satisfies the predicate. -/
theorem find?_eq_head?_of_all {α : Type} (l : List α) (p : α → Bool)
    (h : ∀ x ∈ l, p x = true) : l.find? p = l.head? := by
  cases l with
  | nil => rfl
  | cons a t => exact List.find?_cons_of_pos t (h a (List.mem_cons_self a t))

/-- In a curve whose frequencies are pairwise `R`-related in list order, the
head is `R`-related to every point. -/
theorem head_bound_of_sorted (R : ℚ → ℚ → Prop) (hrefl : ∀ a, R a a)
    (pts : List (ℚ × ℚ)) (hsort : (pts.map Prod.fst).Pairwise R) :
    ∀ p ∈ pts, ∀ q ∈ pts.head?, R q.1 p.1 := by
  cases pts with
  | nil => intro p hp; exact absurd hp (List.not_mem_nil p)
  | cons a t =>
    intro p hp q hq
    have hqa : q = a := by
      have := hq
      simp only [List.head?_cons, Option.mem_def, Option.some.injEq] at this
      exact this.symm
    rcases List.mem_cons.mp hp with h | h
    · rw [hqa, h]
      exact hrefl a.1
    · rw [hqa]
      exact (List.pairwise_cons.mp hsort).1 p.1 (List.mem_map.mpr ⟨p, h, rfl⟩)

/-! ## Claim theorems -/

/-- C1: whenever the T30/T20 fit produces a value `r` with tag `tag`, the
plausibility gate discards it (both `rt60_s` and `method` become `none`) when
`r` lies outside `[0.1, 2.5]` s, and returns it unchanged together with the
method tag when it lies inside. -/
theorem rt60_plausibility_gate (ir : List ℚ) (fs : ℕ) (lg : ℚ → ℚ) (r : ℚ)
    (tag : String)
    (h1 : fs / 10 ≤ ir.length) (h2 : fs / 4 ≤ (irWindow ir fs).length)
    (hf : fittedRT60 ir fs lg = some (r, tag)) :
    (¬(1/10 ≤ r ∧ r ≤ 5/2) →
        (rt60_metrics ir fs lg).rt60_s = none ∧
          (rt60_metrics ir fs lg).method = none)
    ∧ ((1/10 ≤ r ∧ r ≤ 5/2) →
        (rt60_metrics ir fs lg).rt60_s = some r ∧
          (rt60_metrics ir fs lg).method = some tag) := by
  have g1 : ¬ ir.length < fs / 10 := not_lt.mpr h1
  have g2 : ¬ (irWindow ir fs).length < fs / 4 := not_lt.mpr h2
  unfold rt60_metrics
  rw [if_neg g1, if_neg g2, hf]
  dsimp only
  constructor
  · intro hout
    rw [if_neg hout]
    exact ⟨rfl, rfl⟩
  · intro hin
    rw [if_pos hin]
    exact ⟨rfl, rfl⟩

theorem rt60_plausibility_gate_witness :
    (rt60_metrics c1IR 8 c1LG).rt60_s = some c1R ∧
      (rt60_metrics c1IR 8 c1LG).method = some "T30 (-5..-35 dB)" :=
  (rt60_plausibility_gate c1IR 8 c1LG c1R "T30 (-5..-35 dB)"
      (by norm_num [c1IR])
      (by norm_num [c1IR, irWindow, argmaxAbs, List.replicate])
      (by norm_num [c1IR, c1LG, c1R, fittedRT60, fit_decay, fitPoints, edcDb,
        irWindow, argmaxAbs, suffixSums, olsSlope, List.enum, List.enumFrom,
        max_def, List.filterMap_cons, List.replicate])).2
    (by constructor <;> norm_num [c1R])

/-- C8: whenever the 0→−10 dB fit succeeds (enough points in the window) with
an accepted decaying slope `s < -1e-6`, the returned EDT is exactly
`(−60/s) * (10/60)` seconds. -/
theorem edt_formula_preserved (ir : List ℚ) (fs : ℕ) (lg : ℚ → ℚ) (s : ℚ)
    (h1 : fs / 10 ≤ ir.length) (h2 : fs / 4 ≤ (irWindow ir fs).length)
    (hs : edtSlope ir fs lg = some s) (hneg : s < -(1 / 10 ^ 6)) :
    (rt60_metrics ir fs lg).edt_s = some ((-60 / s) * (10 / 60)) := by
  have g1 : ¬ ir.length < fs / 10 := not_lt.mpr h1
  have g2 : ¬ (irWindow ir fs).length < fs / 4 := not_lt.mpr h2
  unfold rt60_metrics
  rw [if_neg g1, if_neg g2, hs]
  dsimp only
  rw [if_pos hneg]
  split
  · rfl
  · split <;> rfl

theorem edt_formula_preserved_witness :
    (rt60_metrics c8IR 8 (fun x => x - 1)).edt_s =
      some ((-60 / (-80 / (8 + 1 / 10 ^ 18))) * (10 / 60)) :=
  edt_formula_preserved c8IR 8 (fun x => x - 1) (-80 / (8 + 1 / 10 ^ 18))
    (by norm_num [c8IR])
    (by norm_num [c8IR, irWindow, argmaxAbs, List.replicate])
    (by norm_num [c8IR, edtSlope, fitPoints, edcDb, irWindow, argmaxAbs,
      suffixSums, olsSlope, List.enum, List.enumFrom, max_def,
      List.filterMap_cons, List.replicate])
    (by norm_num)

/-- C2 counterexample: with the default configuration, an input of fewer
than 8 (in-range, positive-frequency, finite) samples that is not sorted is
returned unchanged by the compactor, so the output frequencies are NOT
strictly increasing — the claim fails on the degenerate path for unsorted
input.  (`pow2w`/`sqrtw` are unused on this path.) -/
theorem compact_centres_monotone_cex :
    ¬ ((compact_log_bins [((100 : ℚ), 0), (50, 0)] 20 20000 48 (9965784/10^6)
          pow2w sqrtw).map Prod.fst).Chain' (· < ·) := by
  have h : compact_log_bins [((100 : ℚ), 0), (50, 0)] 20 20000 48 (9965784/10^6)
      pow2w sqrtw = [((100 : ℚ), 0), (50, 0)] := by
    unfold compact_log_bins
    rw [if_pos]
    · norm_num [keepPts, List.filter]
    · norm_num [keepPts, List.filter]
  rw [h]
  simp only [List.map_cons, List.map_nil, List.chain'_cons]
  norm_num

/-- C2 (amended): the compactor's output centre frequencies are strictly
increasing whenever at least 8 samples survive the `[fmin, fmax]` filter
(for any input order); when fewer than 8 survive, the filtered input is
returned unchanged, so the output is increasing only if the filtered input
itself is. -/
theorem compact_centres_monotone_amended (pts : List (ℚ × ℚ)) (fmin fmax : ℚ)
    (ppo : ℕ) (log2v : ℚ) (pow2 sqrtf : ℚ → ℚ)
    (hEdge : ∀ b, b < nBins ppo log2v →
        binEdge fmin ppo pow2 b < binEdge fmin ppo pow2 (b+1))
    (hSqrt : ∀ b, b < nBins ppo log2v →
        binEdge fmin ppo pow2 b ≤
            sqrtf (binEdge fmin ppo pow2 b * binEdge fmin ppo pow2 (b+1)) ∧
          sqrtf (binEdge fmin ppo pow2 b * binEdge fmin ppo pow2 (b+1)) <
            binEdge fmin ppo pow2 (b+1)) :
    (8 ≤ (keepPts pts fmin fmax).length →
        ((compact_log_bins pts fmin fmax ppo log2v pow2 sqrtf).map
            Prod.fst).Chain' (· < ·))
    ∧ ((keepPts pts fmin fmax).length < 8 →
        compact_log_bins pts fmin fmax ppo log2v pow2 sqrtf =
          keepPts pts fmin fmax) := by
  constructor
  · intro h8
    have hnl : ¬ (keepPts pts fmin fmax).length < 8 := not_lt.mpr h8
    unfold compact_log_bins
    rw [if_neg hnl]
    apply List.Pairwise.chain'
    rw [List.map_filterMap, List.pairwise_filterMap, List.pairwise_iff_getElem]
    intro i j hi hj hij
    rw [List.length_range] at hi hj
    rw [List.getElem_range, List.getElem_range]
    intro x hx y hy
    by_cases hci : 0 < binCount (keepPts pts fmin fmax) fmin ppo
        (nBins ppo log2v) pow2 i
    · by_cases hcj : 0 < binCount (keepPts pts fmin fmax) fmin ppo
          (nBins ppo log2v) pow2 j
      · rw [if_pos hci] at hx
        rw [if_pos hcj] at hy
        simp only [Option.map_some', Option.mem_def, Option.some.injEq] at hx hy
        subst hx
        subst hy
        have h1 := (hSqrt i (lt_trans hij hj)).2
        have h2 := (hSqrt j hj).1
        have h3 := binEdge_mono_le fmin ppo pow2 (nBins ppo log2v) hEdge
          (i+1) j hij (le_of_lt hj)
        linarith
      · rw [if_neg hcj] at hy
        simp at hy
    · rw [if_neg hci] at hx
      simp at hx
  · intro hlt
    unfold compact_log_bins
    rw [if_pos hlt]

theorem compact_centres_monotone_amended_witness :
    ((compact_log_bins c2Pts 1 16 1 4 pow2w sqrtw).map Prod.fst).Chain'
      (· < ·) :=
  (compact_centres_monotone_amended c2Pts 1 16 1 4 pow2w sqrtw
      (by
        intro b hb
        rw [nBins_one_four] at hb
        interval_cases b <;> norm_num [binEdge, pow2w])
      (by
        intro b hb
        rw [nBins_one_four] at hb
        interval_cases b <;> constructor <;> norm_num [binEdge, pow2w, sqrtw])).1
    (by norm_num [keepPts, c2Pts, List.filter])

/-- C9 counterexample: with `fmin = 1`, `fmax = 10`, `ppo = 1`
(`log2v = 3.3219`, the edges `1, 2, 4, 8, 16` and centres `√2, √8, √32, √128`
as the real `2**x` and `sqrt` produce), the compactor's last bin centre
`√128 ≈ 11.31` exceeds `fmax = 10`, so re-compacting the output drops that
bin (and, now under 8 samples, echoes the rest): re-compaction at equal
resolution is NOT idempotent. -/
theorem compact_idempotent_cex :
    compact_log_bins (compact_log_bins c9Pts 1 10 1 (33219/10000) pow2w sqrtw)
        1 10 1 (33219/10000) pow2w sqrtw ≠
      compact_log_bins c9Pts 1 10 1 (33219/10000) pow2w sqrtw := by
  have hr4 : List.range 4 = [0, 1, 2, 3] := rfl
  have hr5 : List.range (4 + 1) = [0, 1, 2, 3, 4] := rfl
  have h1 : compact_log_bins c9Pts 1 10 1 (33219/10000) pow2w sqrtw =
      [(282842712474619/200000000000000, 1),
       (282842712474619/100000000000000, 5),
       (282842712474619/50000000000000, 9),
       (282842712474619/25000000000000, 13)] := by
    norm_num [compact_log_bins, nBins_one_logten, keepPts, c9Pts, binCount,
      binSum, binIndex, binEdge, pow2w, sqrtw, List.filter, hr4, hr5,
      List.filterMap_cons, List.countP_cons]
  have h2 : compact_log_bins
      [((282842712474619 : ℚ)/200000000000000, (1 : ℚ)),
       (282842712474619/100000000000000, 5),
       (282842712474619/50000000000000, 9),
       (282842712474619/25000000000000, 13)] 1 10 1 (33219/10000)
        pow2w sqrtw =
      [(282842712474619/200000000000000, 1),
       (282842712474619/100000000000000, 5),
       (282842712474619/50000000000000, 9)] := by
    norm_num [compact_log_bins, nBins_one_logten, keepPts, binCount,
      binSum, binIndex, binEdge, pow2w, sqrtw, List.filter, hr4, hr5,
      List.filterMap_cons, List.countP_cons]
  rw [h1, h2]
  intro h
  have hlen := congrArg List.length h
  simp at hlen

/-- C9 (amended): re-compaction at the same `points_per_octave`, `fmin` and
`fmax` reproduces the compacted curve exactly, PROVIDED every produced bin
centre lies within `[fmin, fmax]`; the final bin's centre can exceed `fmax`
(its edge range overshoots `fmax` whenever `ppo * log2(fmax/fmin)` is
fractional enough) and such a bin is dropped by re-compaction. -/
theorem compact_idempotent_amended (pts : List (ℚ × ℚ)) (fmin fmax : ℚ)
    (ppo : ℕ) (log2v : ℚ) (pow2 sqrtf : ℚ → ℚ)
    (hEdge : ∀ b, b < nBins ppo log2v →
        binEdge fmin ppo pow2 b < binEdge fmin ppo pow2 (b+1))
    (hSqrt : ∀ b, b < nBins ppo log2v →
        binEdge fmin ppo pow2 b ≤
            sqrtf (binEdge fmin ppo pow2 b * binEdge fmin ppo pow2 (b+1)) ∧
          sqrtf (binEdge fmin ppo pow2 b * binEdge fmin ppo pow2 (b+1)) <
            binEdge fmin ppo pow2 (b+1))
    (hLow : max fmin (1/1000) ≤ binEdge fmin ppo pow2 0)
    (hHigh : ∀ p ∈ compact_log_bins pts fmin fmax ppo log2v pow2 sqrtf,
        p.1 ≤ fmax) :
    compact_log_bins (compact_log_bins pts fmin fmax ppo log2v pow2 sqrtf)
        fmin fmax ppo log2v pow2 sqrtf =
      compact_log_bins pts fmin fmax ppo log2v pow2 sqrtf := by
  by_cases hdeg : (keepPts pts fmin fmax).length < 8
  · have hout : compact_log_bins pts fmin fmax ppo log2v pow2 sqrtf =
        keepPts pts fmin fmax := by
      unfold compact_log_bins
      rw [if_pos hdeg]
    rw [hout]
    unfold compact_log_bins
    rw [keepPts_idem, if_pos hdeg]
  · have hout : compact_log_bins pts fmin fmax ppo log2v pow2 sqrtf =
        ((List.range (nBins ppo log2v)).filter
            (fun b => decide (0 < binCount (keepPts pts fmin fmax) fmin ppo
              (nBins ppo log2v) pow2 b))).map
          (fun b =>
            (sqrtf (binEdge fmin ppo pow2 b * binEdge fmin ppo pow2 (b+1)),
             binSum (keepPts pts fmin fmax) fmin ppo (nBins ppo log2v) pow2 b /
               ((max (binCount (keepPts pts fmin fmax) fmin ppo
                 (nBins ppo log2v) pow2 b) 1 : ℕ) : ℚ))) := by
      unfold compact_log_bins
      rw [if_neg hdeg]
      exact filterMap_ite _ _ _
    rw [hout]
    apply compact_fixpoint fmin fmax ppo log2v pow2 sqrtf _ _ hEdge hSqrt hLow
    intro b hbn hPb
    have hmem : (sqrtf (binEdge fmin ppo pow2 b * binEdge fmin ppo pow2 (b+1)),
        binSum (keepPts pts fmin fmax) fmin ppo (nBins ppo log2v) pow2 b /
          ((max (binCount (keepPts pts fmin fmax) fmin ppo
            (nBins ppo log2v) pow2 b) 1 : ℕ) : ℚ)) ∈
        compact_log_bins pts fmin fmax ppo log2v pow2 sqrtf := by
      rw [hout]
      exact List.mem_map.mpr
        ⟨b, List.mem_filter.mpr ⟨List.mem_range.mpr hbn, hPb⟩, rfl⟩
    exact hHigh _ hmem

theorem compact_idempotent_amended_witness :
    compact_log_bins (compact_log_bins c9WPts 1 16 1 4 pow2w sqrtw) 1 16 1 4
        pow2w sqrtw =
      compact_log_bins c9WPts 1 16 1 4 pow2w sqrtw :=
  compact_idempotent_amended c9WPts 1 16 1 4 pow2w sqrtw
    (by
      intro b hb
      rw [nBins_one_four] at hb
      interval_cases b <;> norm_num [binEdge, pow2w])
    (by
      intro b hb
      rw [nBins_one_four] at hb
      interval_cases b <;> constructor <;> norm_num [binEdge, pow2w, sqrtw])
    (by norm_num [binEdge, pow2w])
    (by
      have hr4 : List.range 4 = [0, 1, 2, 3] := rfl
      have hr5 : List.range (4 + 1) = [0, 1, 2, 3, 4] := rfl
      have hcomp : compact_log_bins c9WPts 1 16 1 4 pow2w sqrtw =
          [(282842712474619/200000000000000, 2),
           (282842712474619/100000000000000, 6),
           (282842712474619/50000000000000, 10),
           (282842712474619/25000000000000, 14)] := by
        norm_num [compact_log_bins, nBins_one_four, keepPts, c9WPts, binCount,
          binSum, binIndex, binEdge, pow2w, sqrtw, List.filter, hr4, hr5,
          List.filterMap_cons, List.countP_cons]
      rw [hcomp]
      intro p hp
      simp only [List.mem_cons, List.not_mem_nil, or_false] at hp
      rcases hp with h | h | h | h
      all_goals
        rw [h]
        norm_num)

/-- C3: for each of the four named bands, the band aggregator reports `none`
(NaN) exactly when no curve point has a frequency in `[lo, hi)`, and
otherwise reports the arithmetic mean of the magnitudes of exactly the
points in the band. -/
theorem band_mean_missing_nan (pts : List (ℚ × ℚ)) (name : String)
    (lo hi : ℚ) (_hband : (name, lo, hi) ∈ fourBands) :
    (band_mean_opt pts lo hi = none ↔ ∀ p ∈ pts, ¬(lo ≤ p.1 ∧ p.1 < hi))
    ∧ ((pts.filter (inBand lo hi)).length ≠ 0 →
        band_mean_opt pts lo hi =
          some (((pts.filter (inBand lo hi)).map Prod.snd).sum /
            ((pts.filter (inBand lo hi)).length : ℚ))) := by
  constructor
  · unfold band_mean_opt
    by_cases h : (pts.filter (inBand lo hi)).length = 0
    · rw [if_pos h]
      simp only [true_iff]
      intro p hp hcond
      have hmem : p ∈ pts.filter (inBand lo hi) :=
        List.mem_filter.mpr ⟨hp, by
          simp only [inBand, Bool.and_eq_true, decide_eq_true_eq]
          exact hcond⟩
      rw [List.length_eq_zero.mp h] at hmem
      exact List.not_mem_nil p hmem
    · rw [if_neg h]
      simp only [reduceCtorEq, false_iff, not_forall]
      have hne : pts.filter (inBand lo hi) ≠ [] := fun hnil => h (by rw [hnil]; rfl)
      obtain ⟨p, hp⟩ := List.exists_mem_of_ne_nil _ hne
      have := List.mem_filter.mp hp
      refine ⟨p, this.1, ?_⟩
      have hc := this.2
      simp only [inBand, Bool.and_eq_true, decide_eq_true_eq] at hc
      simp [hc]
  · intro h
    unfold band_mean_opt
    rw [if_neg h]

theorem band_mean_missing_nan_witness :
    (band_mean_opt c3Pts 10000 20000 = none ↔
        ∀ p ∈ c3Pts, ¬(10000 ≤ p.1 ∧ p.1 < 20000))
    ∧ ((c3Pts.filter (inBand 10000 20000)).length ≠ 0 →
        band_mean_opt c3Pts 10000 20000 =
          some (((c3Pts.filter (inBand 10000 20000)).map Prod.snd).sum /
            ((c3Pts.filter (inBand 10000 20000)).length : ℚ))) :=
  band_mean_missing_nan c3Pts "air_10k_20k" 10000 20000
    (by simp [fourBands])

/-- C4: on a curve with strictly increasing frequencies, every reported mode
has `|delta_db| >= threshold_db` and type `"peak"` iff its delta is
positive; the reported frequencies are strictly ascending; and each
consecutive pair of reported modes is at least `min_separation_hz` apart
(greedy suppression against the last accepted mode). -/
theorem detect_modes_invariants (pts : List (ℚ × ℚ)) (thr minsep : ℚ)
    (lg2 : ℚ → ℚ) (hsort : (pts.map Prod.fst).Pairwise (· < ·)) :
    (∀ m ∈ detect_modes pts thr minsep lg2,
        thr ≤ |m.delta_db| ∧
          m.type = (if 0 < m.delta_db then "peak" else "dip"))
    ∧ ((detect_modes pts thr minsep lg2).map Mode.freq_hz).Chain' (· < ·)
    ∧ ((detect_modes pts thr minsep lg2).map Mode.freq_hz).Chain'
        (fun a b => minsep ≤ b - a) := by
  unfold detect_modes
  by_cases hlen : pts.length < 16
  · rw [if_pos hlen]
    refine ⟨?_, List.chain'_nil, List.chain'_nil⟩
    intro m hm
    exact absurd hm (List.not_mem_nil m)
  · rw [if_neg hlen]
    exact modeScan_props thr minsep (pts.map Prod.fst) _ hsort

theorem detect_modes_invariants_witness :
    (∀ m ∈ detect_modes c4Pts 6 15 (fun _ => 1/3),
        (6:ℚ) ≤ |m.delta_db| ∧
          m.type = (if 0 < m.delta_db then "peak" else "dip"))
    ∧ ((detect_modes c4Pts 6 15 (fun _ => 1/3)).map Mode.freq_hz).Chain'
        (· < ·)
    ∧ ((detect_modes c4Pts 6 15 (fun _ => 1/3)).map Mode.freq_hz).Chain'
        (fun a b => (15:ℚ) ≤ b - a) :=
  detect_modes_invariants c4Pts 6 15 (fun _ => 1/3)
    (by
      norm_num [c4Pts, List.pairwise_cons])

/-- C5: the reflection detector always returns times in strictly ascending
order with consecutive reported times at least 0.3 ms apart (a qualifying
local maximum closer than 0.3 ms to the previously accepted reflection is
dropped); concretely, two candidate peaks 0.15 ms apart collapse to one
reported reflection, while two peaks 2 ms apart are both reported. -/
theorem reflections_min_spacing :
    (∀ (ir : List ℚ) (fs : ℕ) (win_ms min_rel_db : ℚ) (pow10 : ℚ → ℚ),
        (reflections_from_ir ir fs win_ms min_rel_db pow10).Chain'
            (fun a b => 3/10 ≤ b - a)
          ∧ (reflections_from_ir ir fs win_ms min_rel_db pow10).Chain'
              (· < ·))
    ∧ reflections_from_ir c5aIR 20000 20 (-20) (fun _ => 1/10) = [3/20]
    ∧ reflections_from_ir c5bIR 2000 20 (-20) (fun _ => 1/10) = [2, 4] := by
  refine ⟨?_, ?_, ?_⟩
  · intro ir fs win_ms min_rel_db pow10
    have hgap : (reflections_from_ir ir fs win_ms min_rel_db pow10).Chain'
        (fun a b => 3/10 ≤ b - a) := by
      unfold reflections_from_ir
      split
      · exact List.chain'_nil
      · rw [List.chain'_reverse]
        exact (reflFold_inv ir fs (argmaxAbs ir) _ _ []
          (fun x hx => absurd hx (List.not_mem_nil x)) List.chain'_nil).2
    refine ⟨hgap, hgap.imp (fun a b h => ?_)⟩
    linarith
  · have hfloor : (⌊(20000 : ℚ) * (20 / 1000)⌋) = (400 : ℤ) := by
      rw [show ((20000:ℚ) * (20 / 1000)) = ((400:ℤ):ℚ) by norm_num]
      exact Int.floor_intCast 400
    have hround : round2 (3/20) = 3/20 := by
      unfold round2
      rw [show (100 : ℚ) * (3/20) = ((15:ℤ):ℚ) by norm_num, roundHalfEven_intCast]
      norm_num
    have hrange : List.range' 1 6 = [1, 2, 3, 4, 5, 6] := rfl
    have habs : |(1:ℚ)/2| = 1/2 := abs_of_nonneg (by norm_num)
    norm_num [reflections_from_ir, reflStep, argmaxAbs, c5aIR, hfloor, hround,
      hrange, habs, abs_zero, abs_one]
  · have hfloor : (⌊(2000 : ℚ) * (20 / 1000)⌋) = (40 : ℤ) := by
      rw [show ((2000:ℚ) * (20 / 1000)) = ((40:ℤ):ℚ) by norm_num]
      exact Int.floor_intCast 40
    have hround2 : round2 2 = 2 := by
      unfold round2
      rw [show (100 : ℚ) * 2 = ((200:ℤ):ℚ) by norm_num, roundHalfEven_intCast]
      norm_num
    have hround4 : round2 4 = 4 := by
      unfold round2
      rw [show (100 : ℚ) * 4 = ((400:ℤ):ℚ) by norm_num, roundHalfEven_intCast]
      norm_num
    have hrange : List.range' 1 8 = [1, 2, 3, 4, 5, 6, 7, 8] := rfl
    have habs : |(1:ℚ)/2| = 1/2 := abs_of_nonneg (by norm_num)
    norm_num [reflections_from_ir, reflStep, argmaxAbs, c5bIR, hfloor, hround2,
      hround4, hrange, habs, abs_zero, abs_one]

/-- C6: on an all-flat curve of at least 8 points sorted ascending in
frequency, the reference equals the constant magnitude, the target is 3 dB
below it, every point qualifies, and the bandwidth estimator returns the
lowest input frequency as the low edge and the highest as the high edge. -/
theorem find_3db_flat_curve (pts : List (ℚ × ℚ)) (c : ℚ)
    (h8 : 8 ≤ pts.length)
    (hsort : (pts.map Prod.fst).Pairwise (· ≤ ·))
    (hflat : ∀ p ∈ pts, p.2 = c) :
    find_3db_points pts = (pts.head?.map Prod.fst, pts.getLast?.map Prod.fst)
    ∧ (∀ p ∈ pts, ∀ q ∈ pts.head?, q.1 ≤ p.1)
    ∧ (∀ p ∈ pts, ∀ q ∈ pts.getLast?, p.1 ≤ q.1) := by
  have hne : pts ≠ [] := by
    intro h
    rw [h] at h8
    simp at h8
  have href : (if (pts.filter (inBand 500 2000)).length ≠ 0 then
      npMedian ((pts.filter (inBand 500 2000)).map Prod.snd)
    else npMedian (pts.map Prod.snd)) = c := by
    by_cases hmid : (pts.filter (inBand 500 2000)).length ≠ 0
    · rw [if_pos hmid]
      apply npMedian_const
      · intro hnil
        rw [List.map_eq_nil_iff] at hnil
        rw [hnil] at hmid
        simp at hmid
      · intro x hx
        obtain ⟨p, hp, hpx⟩ := List.mem_map.mp hx
        rw [← hpx]
        exact hflat p (List.mem_filter.mp hp).1
    · rw [if_neg hmid]
      apply npMedian_const
      · intro hnil
        exact hne (List.map_eq_nil_iff.mp hnil)
      · intro x hx
        obtain ⟨p, hp, hpx⟩ := List.mem_map.mp hx
        rw [← hpx]
        exact hflat p hp
  have hall : ∀ p ∈ pts,
      (fun p : ℚ × ℚ => decide ((if (pts.filter (inBand 500 2000)).length ≠ 0
          then npMedian ((pts.filter (inBand 500 2000)).map Prod.snd)
        else npMedian (pts.map Prod.snd)) - 3 ≤ p.2)) p = true := by
    intro p hp
    apply decide_eq_true
    rw [href, hflat p hp]
    linarith
  refine ⟨?_, head_bound_of_sorted (· ≤ ·) (fun a => le_refl a) pts hsort, ?_⟩
  · unfold find_3db_points
    rw [if_neg (not_lt.mpr h8)]
    rw [find?_eq_head?_of_all _ _ hall,
      find?_eq_head?_of_all _ _ (fun p hp => hall p (List.mem_reverse.mp hp)),
      List.head?_reverse]
  · intro p hp q hq
    rw [← List.head?_reverse] at hq
    have hrev : (pts.reverse.map Prod.fst).Pairwise (fun a b => b ≤ a) := by
      rw [List.map_reverse]
      exact List.pairwise_reverse.mpr hsort
    exact head_bound_of_sorted (fun a b => b ≤ a) (fun a => le_refl a)
      pts.reverse hrev p (List.mem_reverse.mpr hp) q hq

theorem find_3db_flat_curve_witness :
    find_3db_points c6Pts =
        (c6Pts.head?.map Prod.fst, c6Pts.getLast?.map Prod.fst)
    ∧ (∀ p ∈ c6Pts, ∀ q ∈ c6Pts.head?, q.1 ≤ p.1)
    ∧ (∀ p ∈ c6Pts, ∀ q ∈ c6Pts.getLast?, p.1 ≤ q.1) :=
  find_3db_flat_curve c6Pts 0
    (by norm_num [c6Pts])
    (by norm_num [c6Pts, List.pairwise_cons])
    (by
      intro p hp
      simp only [c6Pts, List.mem_cons, List.not_mem_nil, or_false] at hp
      rcases hp with h | h | h | h | h | h | h | h <;> rw [h])

/-- C7 counterexample: the `measurelyapp/score.py` bandwidth scorer — one of
the claim's cited implementations — does NOT score a missing edge as 0: with
both edges missing it returns the neutral 5.0, not 0.0. -/
theorem score_bandwidth_missing_cex : app_score_bandwidth none none ≠ 0 := by
  norm_num [app_score_bandwidth]

/-- C7 (amended): in the `measurely` scorers (`measurely/score.py` and
`measurely/analyse.py`) a missing edge contributes an edge score of 0 — the
same as a measured edge that maps to 0 (low edge at 100 Hz, high edge at
6000 Hz) — and the returned value is the rounded average of the two edge
scores, so with both edges missing the bandwidth score is 0.0.  The
`measurelyapp/score.py` variant instead short-circuits any missing edge to
the neutral score 5.0. -/
theorem score_bandwidth_missing_amended (olo ohi : Option ℚ) :
    mea_slo none = 0 ∧ mea_shi none = 0
    ∧ mea_score_bandwidth olo ohi = round1 ((mea_slo olo + mea_shi ohi) / 2)
    ∧ mea_score_bandwidth none ohi = mea_score_bandwidth (some 100) ohi
    ∧ mea_score_bandwidth olo none = mea_score_bandwidth olo (some 6000)
    ∧ mea_score_bandwidth none none = 0
    ∧ ana_slo none = 0 ∧ ana_shi none = 0
    ∧ ana_score_bandwidth olo ohi = round1 ((ana_slo olo + ana_shi ohi) / 2)
    ∧ ana_score_bandwidth none ohi = ana_score_bandwidth (some 100) ohi
    ∧ ana_score_bandwidth olo none = ana_score_bandwidth olo (some 6000)
    ∧ ana_score_bandwidth none none = 0
    ∧ app_score_bandwidth none none = 5 := by
  have hm100 : mea_slo (some 100) = 0 := by norm_num [mea_slo, linmap]
  have hm6000 : mea_shi (some 6000) = 0 := by norm_num [mea_shi, linmap]
  have ha100 : ana_slo (some 100) = 0 := by norm_num [ana_slo, linmap]
  have ha6000 : ana_shi (some 6000) = 0 := by norm_num [ana_shi, linmap]
  have hr0 : round1 ((0 + 0) / 2) = 0 := by
    unfold round1
    rw [show (10 : ℚ) * ((0 + 0) / 2) = ((0:ℤ):ℚ) by norm_num,
      roundHalfEven_intCast]
    norm_num
  refine ⟨rfl, rfl, rfl, ?_, ?_, ?_, rfl, rfl, rfl, ?_, ?_, ?_,
    by norm_num [app_score_bandwidth]⟩
  · unfold mea_score_bandwidth
    rw [hm100]
    rfl
  · unfold mea_score_bandwidth
    rw [hm6000]
    rfl
  · unfold mea_score_bandwidth
    rw [show mea_slo none = 0 from rfl, show mea_shi none = 0 from rfl, hr0]
  · unfold ana_score_bandwidth
    rw [ha100]
    rfl
  · unfold ana_score_bandwidth
    rw [ha6000]
    rfl
  · unfold ana_score_bandwidth
    rw [show ana_slo none = 0 from rfl, show ana_shi none = 0 from rfl, hr0]

/-- C10: in every result of the reverberation estimator, `rt60_s` is `none`
iff `method` is `none`: the two fields are set and reset together; only
`edt_s` varies independently. -/
theorem rt60_method_null_iff (ir : List ℚ) (fs : ℕ) (lg : ℚ → ℚ) :
    (rt60_metrics ir fs lg).rt60_s = none ↔
      (rt60_metrics ir fs lg).method = none := by
  unfold rt60_metrics
  (repeat' split) <;> simp

end Measurely
